import Mathlib

/-!
# Verification of the boom-rust load generator core

Shallow embedding of the statistics/aggregation and dispatch core of the
boom-rust HTTP benchmark (src/main.rs, src/report.rs), together with proofs
and refutations of the specified properties.

Modelling conventions:
* f32 latencies are modelled as exact rationals (ℚ); all latency arithmetic
  in the source is plain +, -, *, / on small values.
* i64 / i32 / u16 / usize values are modelled as ℤ or ℕ; panicking operations
  (integer division/remainder by zero, out-of-bounds indexing, Result::unwrap)
  are modelled by Option, with none = panic.
* Rust integer division/remainder truncates toward zero, so Int.tdiv / Int.tmod
  are used where the operands could be negative.
* The histogram assignment loop in Report::print_histogram can fail to make
  progress; it is modelled with explicit fuel, where a result of none for every
  fuel value means the loop never terminates.
-/

namespace Boom

/-- Aggregation state of struct Report (report.rs lines 4-18), restricted to the
fields written during a run: size_total, time_total, req_num, results and
status_num. The derived fields (time_average, size_per_req, time_slowest,
time_fastest, lats) are produced by the finalizer and are modelled as outputs
of the finalize function below. The HashMap status_num is modelled as an
association list (iteration order is immaterial to the claims). -/
structure Report where
  size_total : ℤ
  time_total : ℚ
  req_num : ℤ
  results : List (Nat × ℚ)
  status_num : List (Nat × ℤ)

/-- Report::new / Report::default (report.rs line 21): all fields zero / empty. -/
def Report.new : Report := ⟨0, 0, 0, [], []⟩

/-- The comparison used by Report::finalize (report.rs line 122):
results.sort_by(|a, b| a.partial_cmp(b)) on pairs (u16, f32) compares
lexicographically: first the status code, then the latency. -/
def resLe (a b : Nat × ℚ) : Prop :=
  a.1 < b.1 ∨ (a.1 = b.1 ∧ a.2 ≤ b.2)

instance : DecidableRel resLe := fun a b =>
  inferInstanceAs (Decidable (a.1 < b.1 ∨ (a.1 = b.1 ∧ a.2 ≤ b.2)))

instance : IsRefl (Nat × ℚ) resLe := ⟨fun a => Or.inr ⟨rfl, le_refl a.2⟩⟩

instance : IsTotal (Nat × ℚ) resLe := by
  refine ⟨fun a b => ?_⟩
  rcases Nat.lt_trichotomy a.1 b.1 with h | h | h
  · exact Or.inl (Or.inl h)
  · rcases le_total a.2 b.2 with h2 | h2
    · exact Or.inl (Or.inr ⟨h, h2⟩)
    · exact Or.inr (Or.inr ⟨h.symm, h2⟩)
  · exact Or.inr (Or.inl h)

instance : IsTrans (Nat × ℚ) resLe := by
  refine ⟨fun a b c hab hbc => ?_⟩
  rcases hab with h1 | ⟨h1, h1'⟩ <;> rcases hbc with h2 | ⟨h2, h2'⟩
  · exact Or.inl (h1.trans h2)
  · exact Or.inl (h2 ▸ h1)
  · exact Or.inl (h1 ▸ h2)
  · exact Or.inr ⟨h1.trans h2, h1'.trans h2'⟩

/-- The sort performed by Report::finalize (report.rs line 122). Rust's
sort_by is a comparison sort; since resLe is a total preorder whose ties are
value equality, any sorted permutation is extensionally the same, and
insertion sort is used so that the definition evaluates by kernel reduction. -/
def sortResults (rs : List (Nat × ℚ)) : List (Nat × ℚ) :=
  List.insertionSort resLe rs

/-- Latency of results[0] as read by Report::print (report.rs line 27);
the source indexes unconditionally, which panics on an empty vector — that
panic is accounted for in the finalize function, and this accessor is only
meaningful for nonempty input. -/
def fastestOf (sorted : List (Nat × ℚ)) : ℚ :=
  (sorted.getD 0 (0, 0)).2

/-- Latency of results[results.len() - 1] as read by Report::print
(report.rs line 26); same panic caveat as fastestOf. -/
def slowestOf (sorted : List (Nat × ℚ)) : ℚ :=
  (sorted.getD (sorted.length - 1) (0, 0)).2

/-- Rust's f32-to-i32 cast (t as i32, report.rs line 39): truncation toward
zero, i.e. the numerator divided by the denominator rounding toward zero. -/
def ratTrunc (q : ℚ) : ℤ :=
  Int.tdiv q.num (q.den : ℤ)

/-- The lats vector built by Report::print (report.rs lines 38-40): each
latency of the (sorted) results, truncated to whole milliseconds. -/
def latsOf (sorted : List (Nat × ℚ)) : List ℤ :=
  sorted.map (fun p => ratTrunc p.2)

/-- HashMap entry update of main.rs lines 97-98 and 112-113:
status_num.entry(k).or_insert(0) followed by += 1, on the association-list
model of the map. -/
def bumpStatus (k : Nat) : List (Nat × ℤ) → List (Nat × ℤ)
  | [] => [(k, 1)]
  | (k1, v) :: rest =>
    if k1 = k then (k1, v + 1) :: rest else (k1, v) :: bumpStatus k rest

/-- The Report updates performed by fn b (main.rs lines 87-114) for one
completed HTTP exchange with the given status code, measured latency in
milliseconds, and Body::size_hint().upper() content-length hint:
first critical section adds the latency to time_total, increments req_num and
pushes (status, latency) onto results; for a non-200 status the function then
only bumps status_num and returns false; for status 200 it adds the hint
(or 1025 when the hint is absent, main.rs line 104) to size_total, bumps
status_num for 200 and returns true. The body itself is never read. -/
def recordExchange (status : Nat) (ms : ℚ) (hint : Option Nat) (r : Report) :
    Report × Bool :=
  let r1 : Report :=
    { r with
      time_total := r.time_total + ms
      req_num := r.req_num + 1
      results := r.results ++ [(status, ms)] }
  if status ≠ 200 then
    ({ r1 with status_num := bumpStatus status r1.status_num }, false)
  else
    let contentLen : ℕ := hint.getD 1025
    let r2 : Report := { r1 with size_total := r1.size_total + contentLen }
    ({ r2 with status_num := bumpStatus 200 r2.status_num }, true)

/-- Entry point of fn b (main.rs lines 81-114) as seen from the transport
boundary: client.request(request).await yields either a completed exchange
(status, latency, content-length hint) or a transport error. The source
immediately calls .unwrap() on it (main.rs line 82), so the error case panics
the worker thread; that panic is modelled as none. -/
def bModel (transport : Except Unit (Nat × ℚ × Option Nat)) (r : Report) :
    Option (Report × Bool) :=
  match transport with
  | Except.error _ => none
  | Except.ok (status, ms, hint) => some (recordExchange status ms hint r)

/-- A completed run: every dispatched request finished its HTTP exchange and
was recorded into the shared Report in some completion order (main.rs: the
workers only ever mutate the report through the critical sections of fn b,
and the Mutex serialises them). -/
def runExchanges (exs : List (Nat × ℚ × Option Nat)) : Report :=
  exs.foldl (fun r e => (recordExchange e.1 e.2.1 e.2.2 r).1) Report.new

/-- Sum of the values of the status_num map (the status-code distribution). -/
def sumStatus (r : Report) : ℤ :=
  (r.status_num.map Prod.snd).sum

/-- Derived statistics produced by Report::finalize and the head of
Report::print. -/
structure Finalized where
  sorted : List (Nat × ℚ)
  timeAverage : ℚ
  sizePerReq : ℤ
  fastest : ℚ
  slowest : ℚ
  lats : List ℤ

/-- Report::finalize (report.rs lines 121-126) followed by the field reads at
the start of Report::print (lines 25-43): sort results by the pair order,
compute time_average = time_total / req_num (f32 division, modelled exactly
over ℚ), compute size_per_req = size_total / req_num — i64 division, which
panics when req_num = 0 (modelled as none) — then read results[len - 1] and
results[0], which panics when results is empty (modelled as none), and build
the truncated lats vector. -/
def finalize (r : Report) : Option Finalized :=
  let sorted := sortResults r.results
  let timeAverage := r.time_total / (r.req_num : ℚ)
  if r.req_num = 0 then none
  else if sorted.length = 0 then none
  else
    some ⟨sorted, timeAverage, Int.tdiv r.size_total r.req_num,
      fastestOf sorted, slowestOf sorted, latsOf sorted⟩

/-- The bucket-edge vector of Report::print_histogram (report.rs lines 58-66):
bc = 10, bs = (slowest - fastest) / 10, buckets[i] = fastest + bs * i for
i in 0..10 and buckets[10] = slowest. -/
def histBuckets (fastest slowest : ℚ) : List ℚ :=
  ((List.range 10).map (fun i => fastest + (slowest - fastest) / 10 * i)) ++
    [slowest]

/-- The bucket-assignment loop of Report::print_histogram (report.rs lines
67-83), with explicit fuel. One loop iteration: if ri is past the end of lats
the loop breaks (returning the counts and the running maximum); otherwise if
lats[ri] (as f32) ≤ buckets[bi] the sample is counted into bucket bi and ri
advances; otherwise if bi can still advance it does; otherwise the iteration
changes nothing and the loop spins forever — so a result of none for every
fuel value is a genuine infinite loop of the source. -/
def histScan (buckets : List ℚ) (lats : List ℤ) (fuel ri bi : Nat)
    (counts : List Nat) (mx : Nat) : Option (List Nat × Nat) :=
  if ri ≥ lats.length then some (counts, mx)
  else
    match fuel with
    | 0 => none
    | f + 1 =>
      if (lats.getD ri 0 : ℚ) ≤ buckets.getD bi 0 then
        let counts1 := counts.set bi (counts.getD bi 0 + 1)
        histScan buckets lats f (ri + 1) bi counts1
          (Nat.max mx (counts1.getD bi 0))
      else if bi < buckets.length - 1 then
        histScan buckets lats f ri (bi + 1) counts mx
      else
        histScan buckets lats f ri bi counts mx

/-- The histogram computation of a finalized report: Report::print sorts the
results (via finalize), sets time_fastest / time_slowest from the first / last
sorted entries and builds lats (report.rs lines 26-43), then print_histogram
scans the samples into the 11 counters (initialised to vec![0; 11], with the
running maximum starting at 0). -/
def histCountsRun (fuel : Nat) (rs : List (Nat × ℚ)) : Option (List Nat × Nat) :=
  let sorted := sortResults rs
  histScan (histBuckets (fastestOf sorted) (slowestOf sorted)) (latsOf sorted)
    fuel 0 0 (List.replicate 11 0) 0

/-- The fixed percentile target list of Report::print_latency (report.rs
line 99). -/
def pctls : List Nat := [10, 25, 50, 75, 90, 95, 99]

/-- The percentile-selection loop of Report::print_latency (report.rs lines
100-111): walk the lats array with index i; whenever i * 100 / n (with n the
total length) reaches the current target pctls[j], store lats[i] (as f32) into
data[j] and advance j; stop at the end of the array or when all targets are
exhausted. The list argument is the remainder of lats being walked. -/
def latData (pl : List Nat) (n : Nat) :
    List ℤ → Nat → Nat → List ℚ → List ℚ
  | [], _, _, data => data
  | t :: rest, i, j, data =>
    if j < pl.length then
      if pl.getD j 0 ≤ i * 100 / n then
        latData pl n rest (i + 1) (j + 1) (data.set j (t : ℚ))
      else
        latData pl n rest (i + 1) j data
    else data

/-- The values written by the latData loop, in writing order (a ghost view of
the same recursion used to reason about the data vector it produces). -/
def selVals (pl : List Nat) (n : Nat) : List ℤ → Nat → Nat → List ℚ
  | [], _, _ => []
  | t :: rest, i, j =>
    if j < pl.length then
      if pl.getD j 0 ≤ i * 100 / n then
        (t : ℚ) :: selVals pl n rest (i + 1) (j + 1)
      else
        selVals pl n rest (i + 1) j
    else []

/-- The data vector computed by Report::print_latency (report.rs lines
98-111): data = vec![0.0; pctls.len()], then the selection loop over lats. -/
def percentileData (lats : List ℤ) : List ℚ :=
  latData pctls lats.length lats 0 0 (List.replicate pctls.length 0)

/-- Rust i32 remainder (cnt % concurrency, main.rs line 276): truncating
remainder, which panics when the divisor is zero (modelled as none). -/
def i32Rem (a b : ℤ) : Option ℤ :=
  if b = 0 then none else some (Int.tmod a b)

/-- The dispatch loop of main (main.rs lines 271-279) over the request
indices: each index cnt is sent to workers[cnt % concurrency]; the remainder
panics when concurrency = 0, which aborts the loop (and the process). -/
def dispatchLoop (conc : ℤ) : List ℤ → Option (List ℤ)
  | [] => some []
  | i :: rest =>
    match i32Rem i conc with
    | none => none
    | some o => (dispatchLoop conc rest).map (fun l => o :: l)

/-- The full dispatch of main (main.rs lines 271-279): offsets for
cnt in 0..num_requests. There is no validation of concurrency anywhere
before this loop (main.rs lines 232-235 parse -c without any range check). -/
def dispatchAll (numRequests conc : ℤ) : Option (List ℤ) :=
  dispatchLoop conc ((List.range numRequests.toNat).map Int.ofNat)

/-- The same dispatch loop on natural numbers, for the counting claims: the
worker index chosen for request i is i % conc (meaningful for conc ≥ 1, where
it agrees with dispatchAll — see the bridge conjunct of the round-robin
theorem). -/
def dispatchTargets (numRequests conc : Nat) : List Nat :=
  (List.range numRequests).map (fun i => i % conc)

/-- Number of Execute items enqueued to worker k. -/
def workerLoad (numRequests conc k : Nat) : Nat :=
  (dispatchTargets numRequests conc).count k

/-- Definition following the specification's words, for comparison with the
size accounting the code performs (claim C5): the spec says that for a
status-200 exchange the worker reads the full body and adds its exact byte
length to sizeTotal, and adds nothing otherwise. -/
def specSizeDelta (status : Nat) (bodyLen : ℕ) : ℤ :=
  if status = 200 then bodyLen else 0

/-!
## Claim theorems
-/

/-- C2 (code_bug evidence): for a per-request transport failure, fn b does not
catch the failure and record a distinguished failure Observation — it calls
.unwrap() on the transport result (main.rs line 82), which panics the worker
thread before anything is recorded: the model returns none for every incoming
report state. -/
theorem transport_failure_panics_worker (r : Report) :
    bModel (Except.error ()) r = none := rfl

/-- C3 (code_bug evidence): finalizing the report of an N = 0 run does not
complete with zero-safe placeholders; it hits the i64 division
size_total / req_num with req_num = 0 (report.rs line 124), which panics
(and Report::print would additionally index the empty results vector). -/
theorem finalize_zero_requests_panics : finalize (runExchanges []) = none := rfl

/-- C5 counterexample: for an exchange that completes with status 200, a
response body of exactly 10 bytes, and no content-length hint, the code adds
1025 bytes to sizeTotal (the hard-coded fallback of main.rs line 104), not the
exact body length 10 required by the claim. -/
theorem size_accounting_uses_hint_cex :
    (recordExchange 200 1 none Report.new).1.size_total = 1025 ∧
    specSizeDelta 200 10 = 10 ∧ ((1025 : ℤ) ≠ 10) := by decide

/-- C5 amended: the worker never reads the response body; for a status-200
exchange it adds the content-length hint (Body::size_hint().upper()) to
sizeTotal, or 1025 when the hint is absent, and for any other status code it
adds nothing. -/
theorem size_accounting_hint_or_1025 (status : Nat) (ms : ℚ) (hint : Option Nat)
    (r : Report) :
    (recordExchange status ms hint r).1.size_total =
      r.size_total + (if status = 200 then ((hint.getD 1025 : ℕ) : ℤ) else 0) := by
  unfold recordExchange
  by_cases h : status = 200 <;> simp [h]

/-- C8 (code_bug evidence): with concurrency 0 and one request, main reaches
the dispatch loop (no configuration check rejects concurrency 0) and evaluates
0 % 0, an i32 remainder with divisor zero, which panics — there is no usage
text and no pre-dispatch detection. -/
theorem dispatch_rem_zero_panics : dispatchAll 1 0 = none := rfl

/-- C1 counterexample: finalize sorts results by the (statusCode, latency)
pair order, not ascending by latency. For the observations
[(500, 1 ms), (200, 5 ms)] the sorted sequence is [(200, 5), (500, 1)], which
is not sorted by latency, and the reported fastest time is 5 (the latency of
the first element) while the minimum observed latency is 1, and the reported
slowest time is 1 while the maximum is 5. -/
theorem sort_is_by_status_then_latency_cex :
    sortResults [(500, (1 : ℚ)), (200, 5)] = [(200, 5), (500, 1)] ∧
    ¬ List.Sorted (fun a b : Nat × ℚ => a.2 ≤ b.2)
        (sortResults [(500, (1 : ℚ)), (200, 5)]) ∧
    fastestOf (sortResults [(500, (1 : ℚ)), (200, 5)]) = 5 ∧
    slowestOf (sortResults [(500, (1 : ℚ)), (200, 5)]) = 1 ∧
    ¬ ((5 : ℚ) ≤ 1) := by decide

/-- C10 counterexample: the latencies are truncated to whole milliseconds
before the histogram scan, but the bucket edges are computed from the
untruncated fastest and slowest latencies, so sub-millisecond differences do
affect the histogram counts: the runs [(200, 1), (200, 2.5)] and
[(200, 1), (200, 2.9)] have identical truncated latency vectors (and identical
percentile tables) yet different bucket counts. -/
theorem truncation_histogram_cex :
    latsOf (sortResults [(200, (1 : ℚ)), (200, 5 / 2)]) =
      latsOf (sortResults [(200, (1 : ℚ)), (200, 29 / 10)]) ∧
    percentileData (latsOf (sortResults [(200, (1 : ℚ)), (200, 5 / 2)])) =
      percentileData (latsOf (sortResults [(200, (1 : ℚ)), (200, 29 / 10)])) ∧
    histCountsRun 50 [(200, (1 : ℚ)), (200, 5 / 2)] ≠
      histCountsRun 50 [(200, (1 : ℚ)), (200, 29 / 10)] := by
  with_unfolding_all decide

lemma bumpStatus_sum (k : Nat) (m : List (Nat × ℤ)) :
    ((bumpStatus k m).map Prod.snd).sum = (m.map Prod.snd).sum + 1 := by
  induction m with
  | nil => simp [bumpStatus]
  | cons p rest ih =>
    obtain ⟨k1, v⟩ := p
    by_cases h : k1 = k
    · simp only [bumpStatus, if_pos h, List.map_cons, List.sum_cons]
      ring
    · simp only [bumpStatus, if_neg h, List.map_cons, List.sum_cons, ih]
      ring

lemma recordExchange_step (status : Nat) (ms : ℚ) (hint : Option Nat)
    (r : Report) :
    sumStatus (recordExchange status ms hint r).1 = sumStatus r + 1 ∧
    (recordExchange status ms hint r).1.req_num = r.req_num + 1 ∧
    (recordExchange status ms hint r).1.results.length = r.results.length + 1 := by
  unfold recordExchange sumStatus
  by_cases h : status = 200 <;> simp [h, bumpStatus_sum]

lemma runExchanges_invariant (exs : List (Nat × ℚ × Option Nat)) :
    ∀ r : Report,
      sumStatus (exs.foldl (fun acc e => (recordExchange e.1 e.2.1 e.2.2 acc).1) r) =
          sumStatus r + (exs.length : ℤ) ∧
      (exs.foldl (fun acc e => (recordExchange e.1 e.2.1 e.2.2 acc).1) r).req_num =
          r.req_num + (exs.length : ℤ) ∧
      (exs.foldl (fun acc e => (recordExchange e.1 e.2.1 e.2.2 acc).1) r).results.length =
          r.results.length + exs.length := by
  induction exs with
  | nil => intro r; simp
  | cons e rest ih =>
    intro r
    obtain ⟨h1, h2, h3⟩ := ih ((recordExchange e.1 e.2.1 e.2.2 r).1)
    obtain ⟨g1, g2, g3⟩ := recordExchange_step e.1 e.2.1 e.2.2 r
    simp only [List.foldl_cons, List.length_cons]
    rw [h1, h2, h3, g1, g2, g3]
    refine ⟨by push_cast; ring, by push_cast; ring, by omega⟩

/-- C7: after a completed run (every request finished its exchange and was
recorded, in any completion order), the sum of the status_num counts equals
req_num, the length of results equals req_num, and req_num equals the number
of dispatched requests. -/
theorem report_counts_invariant (exs : List (Nat × ℚ × Option Nat)) :
    sumStatus (runExchanges exs) = (runExchanges exs).req_num ∧
    ((runExchanges exs).results.length : ℤ) = (runExchanges exs).req_num ∧
    (runExchanges exs).req_num = (exs.length : ℤ) := by
  obtain ⟨h1, h2, h3⟩ := runExchanges_invariant exs Report.new
  have e1 : sumStatus Report.new = 0 := rfl
  have e2 : Report.new.req_num = 0 := rfl
  have e3 : Report.new.results.length = 0 := rfl
  unfold runExchanges
  rw [h1, h2, h3, e1, e2, e3]
  norm_num

lemma mod_shift_eq_iff (k m C : Nat) (hC : 1 ≤ C) (hk : k < C) :
    (k + m) % C = k ↔ m % C = 0 := by
  have hd := Nat.div_add_mod m C
  have hr : m % C < C := Nat.mod_lt _ (by omega)
  have h1 : (k + m) % C = (k + m % C) % C := by
    conv_lhs => rw [← hd]
    have e : k + (C * (m / C) + m % C) = k + m % C + (m / C) * C := by ring
    rw [e, Nat.add_mul_mod_self_right]
  rw [h1]
  rcases Nat.lt_or_ge (k + m % C) C with h2 | h2
  · rw [Nat.mod_eq_of_lt h2]; omega
  · have h3 : (k + m % C) % C = k + m % C - C := by
      rw [Nat.mod_eq_sub_mod h2, Nat.mod_eq_of_lt (by omega)]
    omega

lemma ceil_div_step (C k n : Nat) (hC : 1 ≤ C) (hk : k < C) :
    (n + 1 - k + C - 1) / C =
      (n - k + C - 1) / C + (if n % C = k then 1 else 0) := by
  rcases Nat.lt_or_ge n k with h | h
  · have h3 : n % C = n := Nat.mod_eq_of_lt (by omega)
    rw [if_neg (by omega)]
    have e1 : n + 1 - k + C - 1 = C - 1 := by omega
    have e2 : n - k + C - 1 = C - 1 := by omega
    rw [e1, e2]
    omega
  · obtain ⟨m, rfl⟩ : ∃ m, n = k + m := ⟨n - k, by omega⟩
    have e1 : k + m + 1 - k + C - 1 = m + C := by omega
    have e2 : k + m - k + C - 1 = m + C - 1 := by omega
    rw [e1, e2]
    have hd := Nat.div_add_mod m C
    have hrC : m % C < C := Nat.mod_lt _ (by omega)
    set q := m / C with hq
    set r := m % C with hrr
    have e3 : m + C - 1 = C * q + (r + C - 1) := by omega
    have e4 : m + C = C * q + (r + C) := by omega
    rw [e3, e4, Nat.mul_add_div (by omega), Nat.mul_add_div (by omega)]
    have h5 : (r + C) / C = 1 := Nat.div_eq_of_lt_le (by omega) (by omega)
    by_cases hr0 : r = 0
    · rw [if_pos ((mod_shift_eq_iff k m C hC hk).2 hr0)]
      have h6 : (r + C - 1) / C = 0 := Nat.div_eq_of_lt (by omega)
      omega
    · rw [if_neg (fun hc => hr0 ((mod_shift_eq_iff k m C hC hk).1 hc))]
      have h6 : (r + C - 1) / C = 1 := Nat.div_eq_of_lt_le (by omega) (by omega)
      omega

lemma workerLoad_succ (n C k : Nat) :
    workerLoad (n + 1) C k = workerLoad n C k + (if n % C = k then 1 else 0) := by
  unfold workerLoad dispatchTargets
  rw [List.range_succ, List.map_append, List.count_append]
  by_cases h : n % C = k <;> simp [h, List.count_cons]

lemma workerLoad_eq (C k : Nat) (hC : 1 ≤ C) (hk : k < C) :
    ∀ n, workerLoad n C k = (n - k + C - 1) / C := by
  intro n
  induction n with
  | zero =>
    have h0 : (0 - k + C - 1) / C = 0 := Nat.div_eq_of_lt (by omega)
    rw [h0]
    rfl
  | succ n ih =>
    rw [workerLoad_succ, ih]
    exact (ceil_div_step C k n hC hk).symm

lemma dispatchLoop_total (C : Nat) (hC : C ≠ 0) (l : List Nat) :
    dispatchLoop (C : ℤ) (l.map Int.ofNat) =
      some ((l.map (fun i => i % C)).map Int.ofNat) := by
  induction l with
  | nil => rfl
  | cons a t ih =>
    have hcast : ((C : ℤ)) ≠ 0 := by exact_mod_cast hC
    have h1 : i32Rem (Int.ofNat a) (C : ℤ) = some (Int.ofNat (a % C)) := by
      rw [i32Rem, if_neg hcast]
      rfl
    rw [List.map_cons]
    rw [show dispatchLoop (C : ℤ) (Int.ofNat a :: t.map Int.ofNat) =
          (match i32Rem (Int.ofNat a) (C : ℤ) with
           | none => none
           | some o =>
             (dispatchLoop (C : ℤ) (t.map Int.ofNat)).map
               (fun l => o :: l)) from rfl]
    rw [h1, ih]
    rfl

/-- C6: for all N ≥ 0 and C ≥ 1 the dispatcher enqueues exactly N Execute
items, request i goes to worker i mod C, worker k receives exactly
ceil((N−k)/C) items (expressed with truncated natural subtraction, which
clamps the count at 0 for k ≥ N), and the natural-number model agrees with
the i32 dispatch loop of the source. -/
theorem dispatch_round_robin (N C : Nat) (hC : 1 ≤ C) :
    (dispatchTargets N C).length = N ∧
    (∀ i, i < N → (dispatchTargets N C).getD i 0 = i % C) ∧
    (∀ k, k < C → workerLoad N C k = (N - k + C - 1) / C) ∧
    dispatchAll (N : ℤ) (C : ℤ) =
      some ((dispatchTargets N C).map Int.ofNat) := by
  refine ⟨by simp [dispatchTargets], ?_, fun k hk => workerLoad_eq C k hC hk N, ?_⟩
  · intro i hi
    have hi' : i < (dispatchTargets N C).length := by
      simpa [dispatchTargets] using hi
    rw [List.getD_eq_getElem?_getD, List.getElem?_eq_getElem hi']
    simp [dispatchTargets]
  · unfold dispatchAll dispatchTargets
    rw [Int.toNat_ofNat]
    exact dispatchLoop_total C (by omega) (List.range N)

/-- Witness for the round-robin theorem at N = 5, C = 2 (loads 3 and 2). -/
theorem dispatch_round_robin_witness :
    1 ≤ 2 ∧
    ((dispatchTargets 5 2).length = 5 ∧
     (∀ i, i < 5 → (dispatchTargets 5 2).getD i 0 = i % 2) ∧
     (∀ k, k < 2 → workerLoad 5 2 k = (5 - k + 2 - 1) / 2) ∧
     dispatchAll ((5 : Nat) : ℤ) ((2 : Nat) : ℤ) =
       some ((dispatchTargets 5 2).map Int.ofNat)) :=
  ⟨by decide, dispatch_round_robin 5 2 (by decide)⟩

lemma sorted_getD_zero_le (l : List (Nat × ℚ)) (hs : List.Sorted resLe l)
    (p : Nat × ℚ) (hp : p ∈ l) : resLe (l.getD 0 (0, 0)) p := by
  obtain ⟨i, hi, rfl⟩ := List.getElem_of_mem hp
  have h0 : 0 < l.length := by omega
  have e : l.getD 0 (0, 0) = l.get ⟨0, h0⟩ := by
    rw [List.getD_eq_getElem?_getD, List.getElem?_eq_getElem h0]
    rfl
  rw [e, show l[i] = l.get ⟨i, hi⟩ from rfl]
  exact hs.rel_get_of_le (Fin.mk_le_mk.2 (Nat.zero_le i))

lemma sorted_getD_last_ge (l : List (Nat × ℚ)) (hs : List.Sorted resLe l)
    (p : Nat × ℚ) (hp : p ∈ l) : resLe p (l.getD (l.length - 1) (0, 0)) := by
  obtain ⟨i, hi, rfl⟩ := List.getElem_of_mem hp
  have hlast : l.length - 1 < l.length := by omega
  have e : l.getD (l.length - 1) (0, 0) = l.get ⟨l.length - 1, hlast⟩ := by
    rw [List.getD_eq_getElem?_getD, List.getElem?_eq_getElem hlast]
    rfl
  rw [e, show l[i] = l.get ⟨i, hi⟩ from rfl]
  exact hs.rel_get_of_le (Fin.mk_le_mk.2 (by omega))

/-- C1 amended: finalize sorts results ascending by the (statusCode, latency)
pair order (lexicographic), and the reported fastest / slowest times are the
latencies of the first / last elements of that order. When every observation
has one and the same status code, this order coincides with ascending latency
and the reported times are the minimum and maximum observed latencies; with
differing status codes they need not be (see the counterexample). -/
theorem finalize_sort_pair_order (rs : List (Nat × ℚ)) (_h : rs ≠ []) :
    List.Sorted resLe (sortResults rs) ∧
    (sortResults rs).Perm rs ∧
    (∀ s, (∀ p ∈ rs, p.1 = s) →
      ∀ p ∈ rs,
        fastestOf (sortResults rs) ≤ p.2 ∧ p.2 ≤ slowestOf (sortResults rs)) := by
  have hsorted : List.Sorted resLe (sortResults rs) :=
    List.sorted_insertionSort resLe rs
  have hperm : (sortResults rs).Perm rs := List.perm_insertionSort resLe rs
  refine ⟨hsorted, hperm, ?_⟩
  intro s hs p hp
  have hp' : p ∈ sortResults rs := hperm.mem_iff.2 hp
  have hlen : 0 < (sortResults rs).length := List.length_pos_of_mem hp'
  have hlast : (sortResults rs).length - 1 < (sortResults rs).length := by omega
  have hfmem : (sortResults rs).getD 0 (0, 0) ∈ sortResults rs := by
    rw [List.getD_eq_getElem?_getD, List.getElem?_eq_getElem hlen]
    exact List.getElem_mem hlen
  have hlmem : (sortResults rs).getD ((sortResults rs).length - 1) (0, 0) ∈
      sortResults rs := by
    rw [List.getD_eq_getElem?_getD, List.getElem?_eq_getElem hlast]
    exact List.getElem_mem hlast
  have hfs : ((sortResults rs).getD 0 (0, 0)).1 = s :=
    hs _ (hperm.mem_iff.1 hfmem)
  have hls : ((sortResults rs).getD ((sortResults rs).length - 1) (0, 0)).1 = s :=
    hs _ (hperm.mem_iff.1 hlmem)
  have hps : p.1 = s := hs p hp
  constructor
  · rcases sorted_getD_zero_le _ hsorted p hp' with hlt | ⟨_, hle⟩
    · omega
    · exact hle
  · rcases sorted_getD_last_ge _ hsorted p hp' with hlt | ⟨_, hle⟩
    · omega
    · exact hle

/-- Witness for the pair-order sorting theorem at the uniform-status input
[(200, 2 ms), (200, 1 ms)]. -/
theorem finalize_sort_pair_order_witness :
    ([(200, (2 : ℚ)), (200, 1)] : List (Nat × ℚ)) ≠ [] ∧
    (List.Sorted resLe (sortResults [(200, (2 : ℚ)), (200, 1)]) ∧
     (sortResults [(200, (2 : ℚ)), (200, 1)]).Perm [(200, (2 : ℚ)), (200, 1)] ∧
     (∀ s, (∀ p ∈ ([(200, (2 : ℚ)), (200, 1)] : List (Nat × ℚ)), p.1 = s) →
       ∀ p ∈ ([(200, (2 : ℚ)), (200, 1)] : List (Nat × ℚ)),
         fastestOf (sortResults [(200, (2 : ℚ)), (200, 1)]) ≤ p.2 ∧
         p.2 ≤ slowestOf (sortResults [(200, (2 : ℚ)), (200, 1)]))) :=
  ⟨by decide, finalize_sort_pair_order _ (by decide)⟩

lemma take_succ_set :
    ∀ (data : List ℚ) (j : Nat) (a : ℚ), j < data.length →
      (data.set j a).take (j + 1) = data.take j ++ [a]
  | [], j, a, h => by simp at h
  | d :: ds, 0, a, _ => by simp
  | d :: ds, j + 1, a, h => by
    simp only [List.set_cons_succ, List.take_succ_cons, List.take_cons]
    rw [take_succ_set ds j a (by simpa using h)]
    rfl

lemma latData_eq_selVals (pl : List Nat) (n : Nat) :
    ∀ (lats : List ℤ) (i j : Nat) (data : List ℚ), pl.length ≤ data.length →
      latData pl n lats i j data =
        data.take j ++ selVals pl n lats i j ++
          data.drop (j + (selVals pl n lats i j).length) := by
  intro lats
  induction lats with
  | nil =>
    intro i j data _
    simp [latData, selVals, List.take_append_drop]
  | cons t rest ih =>
    intro i j data hlen
    by_cases hj : j < pl.length
    · by_cases hc : pl.getD j 0 ≤ i * 100 / n
      · have hjd : j < data.length := lt_of_lt_of_le hj hlen
        simp only [latData, selVals, if_pos hj, if_pos hc, List.length_cons]
        rw [ih (i + 1) (j + 1) (data.set j (t : ℚ)) (by simpa using hlen)]
        have hdrop :
            (data.set j (t : ℚ)).drop
                (j + 1 + (selVals pl n rest (i + 1) (j + 1)).length) =
              data.drop (j + 1 + (selVals pl n rest (i + 1) (j + 1)).length) := by
          rw [List.drop_set, if_pos (by omega)]
        rw [take_succ_set data j (t : ℚ) hjd, hdrop]
        have hidx : j + ((selVals pl n rest (i + 1) (j + 1)).length + 1) =
            j + 1 + (selVals pl n rest (i + 1) (j + 1)).length := by omega
        rw [hidx]
        simp [List.append_assoc]
      · simp only [latData, selVals, if_pos hj, if_neg hc]
        exact ih (i + 1) j data hlen
    · simp [latData, selVals, hj, List.take_append_drop]

lemma selVals_mem (pl : List Nat) (n : Nat) :
    ∀ (lats : List ℤ) (i j : Nat) (x : ℚ), x ∈ selVals pl n lats i j →
      ∃ y ∈ lats, x = (y : ℚ) := by
  intro lats
  induction lats with
  | nil => intro i j x hx; simp [selVals] at hx
  | cons t rest ih =>
    intro i j x hx
    by_cases hj : j < pl.length
    · by_cases hc : pl.getD j 0 ≤ i * 100 / n
      · simp only [selVals, if_pos hj, if_pos hc] at hx
        rcases List.mem_cons.1 hx with rfl | hx2
        · exact ⟨t, List.mem_cons_self t rest, rfl⟩
        · obtain ⟨y, hy, rfl⟩ := ih (i + 1) (j + 1) x hx2
          exact ⟨y, List.mem_cons_of_mem t hy, rfl⟩
      · simp only [selVals, if_pos hj, if_neg hc] at hx
        obtain ⟨y, hy, rfl⟩ := ih (i + 1) j x hx
        exact ⟨y, List.mem_cons_of_mem t hy, rfl⟩
    · simp [selVals, hj] at hx

lemma selVals_sorted (pl : List Nat) (n : Nat) :
    ∀ (lats : List ℤ), List.Sorted (· ≤ ·) lats →
      ∀ (i j : Nat), List.Sorted (· ≤ ·) (selVals pl n lats i j) := by
  intro lats
  induction lats with
  | nil => intro _ i j; simp [selVals]
  | cons t rest ih =>
    intro hs i j
    have hrest : List.Sorted (· ≤ ·) rest := hs.of_cons
    by_cases hj : j < pl.length
    · by_cases hc : pl.getD j 0 ≤ i * 100 / n
      · simp only [selVals, if_pos hj, if_pos hc]
        rw [List.sorted_cons]
        refine ⟨?_, ih hrest (i + 1) (j + 1)⟩
        intro b hb
        obtain ⟨y, hy, rfl⟩ := selVals_mem pl n rest (i + 1) (j + 1) b hb
        exact_mod_cast List.rel_of_sorted_cons hs y hy
      · simp only [selVals, if_pos hj, if_neg hc]
        exact ih hrest (i + 1) j
    · simp [selVals, hj]

/-- C9: for a latency input sorted ascending, the percentile values the
latency table prints (the positive entries of the data vector, exactly the
entries Report::print_latency outputs) are non-decreasing in the percentile
target. -/
theorem percentiles_monotone (lats : List ℤ) (h : List.Sorted (· ≤ ·) lats) :
    List.Sorted (· ≤ ·)
      ((percentileData lats).filter (fun x => decide (0 < x))) := by
  unfold percentileData
  rw [latData_eq_selVals pctls lats.length lats 0 0
    (List.replicate pctls.length 0) (by simp)]
  simp only [List.take_zero, List.nil_append, List.filter_append]
  have hfilter2 :
      ((List.replicate pctls.length (0 : ℚ)).drop
          (0 + (selVals pctls lats.length lats 0 0).length)).filter
        (fun x => decide (0 < x)) = [] := by
    rw [List.filter_eq_nil_iff]
    intro a ha
    have ha0 : a = 0 := List.eq_of_mem_replicate (List.mem_of_mem_drop ha)
    simp [ha0]
  rw [hfilter2, List.append_nil]
  exact (selVals_sorted pctls lats.length lats h 0 0).filter _

/-- Witness for the percentile monotonicity theorem on the sorted input
[1, 2, 3]. -/
theorem percentiles_monotone_witness :
    List.Sorted (· ≤ ·) ([1, 2, 3] : List ℤ) ∧
    List.Sorted (· ≤ ·)
      ((percentileData [1, 2, 3]).filter (fun x => decide (0 < x))) :=
  ⟨by decide, percentiles_monotone [1, 2, 3] (by decide)⟩

/-- C10 amended: every recorded latency is truncated to a whole millisecond
(toward zero) before the histogram and percentile computations; the percentile
table is a function of the truncated values only (and every value it holds is
either an unassigned 0 or one of the truncated latencies), and a latency under
1 ms truncates to 0. The histogram counts, however, are not a function of the
truncated values, because the bucket edges come from the untruncated fastest
and slowest latencies — see the counterexample. -/
theorem truncation_percentiles_only (rs1 rs2 : List (Nat × ℚ))
    (h : latsOf (sortResults rs1) = latsOf (sortResults rs2)) :
    percentileData (latsOf (sortResults rs1)) =
      percentileData (latsOf (sortResults rs2)) ∧
    (∀ x ∈ percentileData (latsOf (sortResults rs1)),
      x = 0 ∨ ∃ y ∈ latsOf (sortResults rs1), x = (y : ℚ)) ∧
    (∀ q : ℚ, 0 ≤ q → q < 1 → ratTrunc q = 0) := by
  refine ⟨by rw [h], ?_, ?_⟩
  · intro x hx
    unfold percentileData at hx
    rw [latData_eq_selVals pctls (latsOf (sortResults rs1)).length
      (latsOf (sortResults rs1)) 0 0 (List.replicate pctls.length 0)
      (by simp)] at hx
    simp only [List.take_zero, List.nil_append, List.mem_append] at hx
    rcases hx with hx | hx
    · exact Or.inr (selVals_mem _ _ _ _ _ x hx)
    · exact Or.inl (List.eq_of_mem_replicate (List.mem_of_mem_drop hx))
  · intro q h0 h1
    unfold ratTrunc
    have hnum : 0 ≤ q.num := Rat.num_nonneg.2 h0
    have hden : q.num < (q.den : ℤ) := Rat.lt_one_iff_num_lt_denom.1 h1
    rw [Int.tdiv_eq_ediv hnum (by positivity)]
    exact Int.ediv_eq_zero_of_lt hnum hden

/-- Witness for the truncation theorem at the single-observation runs
[(200, 1.5 ms)] and [(200, 1.75 ms)], whose truncated latency vectors are both
[1]. -/
theorem truncation_percentiles_only_witness :
    latsOf (sortResults [(200, (3 / 2 : ℚ))]) =
      latsOf (sortResults [(200, (7 / 4 : ℚ))]) ∧
    (percentileData (latsOf (sortResults [(200, (3 / 2 : ℚ))])) =
       percentileData (latsOf (sortResults [(200, (7 / 4 : ℚ))])) ∧
     (∀ x ∈ percentileData (latsOf (sortResults [(200, (3 / 2 : ℚ))])),
       x = 0 ∨ ∃ y ∈ latsOf (sortResults [(200, (3 / 2 : ℚ))]), x = (y : ℚ)) ∧
     (∀ q : ℚ, 0 ≤ q → q < 1 → ratTrunc q = 0)) :=
  ⟨by with_unfolding_all decide,
   truncation_percentiles_only _ _ (by with_unfolding_all decide)⟩

/-- C4 (code_bug evidence): the histogram bucket-assignment scan does not
terminate for every finalized report. For the completed run with observations
[(200, 1 ms), (200, 10 ms), (500, 2 ms)], the finalize sort orders by status
code first, so time_fastest = 1 and time_slowest = 2 while the sample 10
exceeds the last bucket edge 2: the scan reaches the last bucket, can neither
count the sample nor advance, and loops forever — the model returns none for
every amount of fuel, and no bucket counts (summing to reqNum or otherwise)
are ever produced. -/
theorem histogram_scan_diverges :
    ∀ fuel, histCountsRun fuel [(200, (1 : ℚ)), (200, 10), (500, 2)] = none := by
  have h10 : ∀ f, histScan (histBuckets 1 2) [1, 10, 2] f 1 10
      [1, 0, 0, 0, 0, 0, 0, 0, 0, 0, 0] 1 = none := by
    intro f
    induction f with
    | zero => with_unfolding_all rfl
    | succ f ih =>
      have e : histScan (histBuckets 1 2) [1, 10, 2] (f + 1) 1 10
          [1, 0, 0, 0, 0, 0, 0, 0, 0, 0, 0] 1 =
          histScan (histBuckets 1 2) [1, 10, 2] f 1 10
          [1, 0, 0, 0, 0, 0, 0, 0, 0, 0, 0] 1 := by
        with_unfolding_all rfl
      rw [e]
      exact ih
  have hadv : ∀ bi, bi < 10 →
      (∀ f, histScan (histBuckets 1 2) [1, 10, 2] f 1 (bi + 1)
        [1, 0, 0, 0, 0, 0, 0, 0, 0, 0, 0] 1 = none) →
      ∀ f, histScan (histBuckets 1 2) [1, 10, 2] f 1 bi
        [1, 0, 0, 0, 0, 0, 0, 0, 0, 0, 0] 1 = none := by
    intro bi hbi hnext f
    cases f with
    | zero =>
      rw [show histScan (histBuckets 1 2) [1, 10, 2] 0 1 bi
          [1, 0, 0, 0, 0, 0, 0, 0, 0, 0, 0] 1 =
          (if (1 : Nat) ≥ 3 then
            some (([1, 0, 0, 0, 0, 0, 0, 0, 0, 0, 0] : List Nat), (1 : Nat))
          else none) from by with_unfolding_all rfl]
      simp
    | succ f =>
      have hble : (([1, 10, 2] : List ℤ).getD 1 0 : ℚ) ≤
          (histBuckets 1 2).getD bi 0 ↔ False := by
        simp only [iff_false, not_le]
        have hb : (histBuckets 1 2).getD bi 0 ≤ 2 := by
          interval_cases bi <;> with_unfolding_all decide
        have h2 : ((([1, 10, 2] : List ℤ).getD 1 0 : ℤ) : ℚ) = 10 := by
          with_unfolding_all decide
        rw [h2]
        linarith
      have e : histScan (histBuckets 1 2) [1, 10, 2] (f + 1) 1 bi
          [1, 0, 0, 0, 0, 0, 0, 0, 0, 0, 0] 1 =
          histScan (histBuckets 1 2) [1, 10, 2] f 1 (bi + 1)
          [1, 0, 0, 0, 0, 0, 0, 0, 0, 0, 0] 1 := by
        have hlen : (histBuckets 1 2).length = 11 := by
          with_unfolding_all decide
        rw [histScan, if_neg (by simp), if_neg (by rw [hble]; exact id),
          if_pos (by rw [hlen]; omega)]
      rw [e]
      exact hnext f
  have hchain : ∀ d, d ≤ 10 →
      ∀ f, histScan (histBuckets 1 2) [1, 10, 2] f 1 (10 - d)
        [1, 0, 0, 0, 0, 0, 0, 0, 0, 0, 0] 1 = none := by
    intro d
    induction d with
    | zero => intro _; exact h10
    | succ d ih =>
      intro hd
      have h1 : 10 - (d + 1) < 10 := by omega
      have h2 : 10 - (d + 1) + 1 = 10 - d := by omega
      refine hadv (10 - (d + 1)) h1 ?_
      rw [h2]
      exact ih (by omega)
  have h0 : ∀ f, histScan (histBuckets 1 2) [1, 10, 2] f 1 0
      [1, 0, 0, 0, 0, 0, 0, 0, 0, 0, 0] 1 = none := by
    have := hchain 10 (by omega)
    simpa using this
  have hstart : ∀ f, histScan (histBuckets 1 2) [1, 10, 2] f 0 0
      (List.replicate 11 0) 0 = none := by
    intro f
    cases f with
    | zero => with_unfolding_all rfl
    | succ f =>
      have e : histScan (histBuckets 1 2) [1, 10, 2] (f + 1) 0 0
          (List.replicate 11 0) 0 =
          histScan (histBuckets 1 2) [1, 10, 2] f 1 0
          [1, 0, 0, 0, 0, 0, 0, 0, 0, 0, 0] 1 := by
        with_unfolding_all rfl
      rw [e]
      exact h0 f
  intro fuel
  have epipe : histCountsRun fuel [(200, (1 : ℚ)), (200, 10), (500, 2)] =
      histScan (histBuckets 1 2) [1, 10, 2] fuel 0 0 (List.replicate 11 0) 0 := by
    with_unfolding_all rfl
  rw [epipe]
  exact hstart fuel

end Boom
